import Mathlib

/-!
Verification of the incremental planar Voronoi diagram builder of
libefgy (src/include/ef.gy/voronoi.h, class efgy::geometry::voronoi).

The geometry collaborators consumed by the builder (half-plane clip,
point-in-polygon test, perpendicular construction, from geometry.h) and
the ordered-set cell container (math::set, from set.h) are not part of
the sources; following the specification they are treated as external
contracts: the clip/containment/perpendicular operations are collected in
an abstract kernel structure, and the set container is modelled from the
specification's description (membership by cell equality, which compares
sites only).
-/

namespace Efgy

/-- A 2D point/vector: the template scalar S instantiated with the
integers (any exact scalar works; only the abstract collaborators below
consume coordinates). -/
structure Vec where
  x : ℤ
  y : ℤ
deriving DecidableEq

/-- Componentwise vector addition (vector operator+ of the scalar space). -/
def vadd (a b : Vec) : Vec := ⟨a.x + b.x, a.y + b.y⟩

/-- Componentwise vector subtraction (vector operator- of the scalar space). -/
def vsub (a b : Vec) : Vec := ⟨a.x - b.x, a.y - b.y⟩

/-- polygon<S>: the vertex list (data member) plus the colour tag carried
for rendering.  The opaque colour payload is modelled by a natural
number. -/
structure polygon where
  data : List Vec
  colour : Nat
deriving DecidableEq

/-- voronoi::cell (voronoi.h lines 48-87): one site, one area polygon and
one colour payload. -/
structure cell where
  site : Vec
  area : polygon
  colour : Nat
deriving DecidableEq

/-- cell::operator== (voronoi.h lines 79-82): cells compare equal by their
sites only. -/
def cellEq (a b : cell) : Bool := a.site == b.site

/-- Modelled from the spec: math::set<cell>::operator+ (set.h is not under
src/): inserting into the ordered-set container appends the element
unless an equal element is already present; equality of cells is equality
of their sites. -/
def setAdd (s : List cell) (c : cell) : List cell :=
  if s.any (fun b => cellEq b c) then s else s ++ [c]

/-- Modelled from the spec: the external geometry collaborators of §6
(geometry.h is not under src/): the point-in-convex-polygon test
(polygon && point), the half-plane clip (polygon / ngon, yielding maybe
side A, maybe side B, and the remainder vertex list, with a missing
remainder modelled as the empty list), the polygon union
(polygon + polygon), euclidian::getPerpendicular, and line<S>::midpoint
("constructed from the midpoint of two sites"). -/
structure GeoKernel where
  contains : List Vec → Vec → Bool
  clip : List Vec → Vec × Vec → Option (List Vec) × Option (List Vec) × List Vec
  punion : List Vec → List Vec → List Vec
  getPerpendicular : Vec → Vec
  midpoint : Vec → Vec → Vec

/-- voronoi.h lines 147-155: the perpendicular bisector of v and nearest,
as the two-point ngon (m + p, m - p) with m the midpoint of v and nearest
and p the perpendicular of v - nearest. -/
def perpendicularBisector (G : GeoKernel) (v nearest : Vec) : Vec × Vec :=
  (vadd (G.midpoint v nearest) (G.getPerpendicular (vsub v nearest)),
   vsub (G.midpoint v nearest) (G.getPerpendicular (vsub v nearest)))

/-- The diagram: the cell collection (math::set<cell>, whose data member
is the underlying sequence). -/
structure voronoi where
  cells : List cell
deriving DecidableEq

/-- State of the neighbor cascade (voronoi.h lines 187-248): the cell
sequence, the set of used cell indices, the accumulating area of the new
cell, and the worklist polygon rC of unresolved boundary vertices. -/
structure CascadeState where
  cells : List cell
  used : List Nat
  newCell : List Vec
  rC : List Vec
deriving DecidableEq

/-- Body of the cascade's inner for-loop (voronoi.h lines 196-245) for a
single cell index k, with popped worklist point q and new site v: a used
or non-containing cell is skipped; otherwise the cell is marked used, its
polygon is clipped against the bisector of v and its site, whichever side
still contains the site (tested in the order side A, side B) is assigned
back (with the cell's colour), the other side is unioned into the new
cell's area, and the clip remainder is appended to the worklist. -/
def cascadeCellStep (G : GeoKernel) (v q : Vec) (st : CascadeState) (k : Nat) :
    CascadeState :=
  if st.used.contains k then st
  else
    match st.cells[k]? with
    | none => st
    | some ck =>
      if G.contains ck.area.data q then
        let rd := G.clip ck.area.data (perpendicularBisector G v ck.site)
        match rd.1, rd.2.1 with
        | some rD, some rE =>
          if G.contains rD ck.site then
            ⟨st.cells.set k ⟨ck.site, ⟨rD, ck.colour⟩, ck.colour⟩, k :: st.used,
             G.punion st.newCell rE, st.rC ++ rd.2.2⟩
          else if G.contains rE ck.site then
            ⟨st.cells.set k ⟨ck.site, ⟨rE, ck.colour⟩, ck.colour⟩, k :: st.used,
             G.punion st.newCell rD, st.rC ++ rd.2.2⟩
          else
            ⟨st.cells, k :: st.used, st.newCell, st.rC ++ rd.2.2⟩
        | _, _ => ⟨st.cells, k :: st.used, st.newCell, st.rC⟩
      else st

/-- One pass of the inner for-loop over the cell indices ks. -/
def cascadeSweep (G : GeoKernel) (v q : Vec) (ks : List Nat) (st : CascadeState) :
    CascadeState :=
  ks.foldl (cascadeCellStep G v q) st

/-- One iteration of the cascade's while-loop (voronoi.h lines 192-248):
pop q = rC.data[0], sweep over all cell indices, then remove q from the
worklist. -/
def cascadeIter (G : GeoKernel) (v : Vec) (st : CascadeState) : CascadeState :=
  match st.rC with
  | [] => st
  | q :: _ =>
    let sw := cascadeSweep G v q (List.range st.cells.length) st
    ⟨sw.cells, sw.used, sw.newCell, sw.rC.erase q⟩

/-- Fuel-indexed run of the cascade while-loop; none when the fuel runs
out before the worklist empties. -/
def cascadeFuel (G : GeoKernel) (v : Vec) : Nat → CascadeState → Option CascadeState
  | 0, st => if st.rC = [] then some st else none
  | n + 1, st => if st.rC = [] then some st else cascadeFuel G v n (cascadeIter G v st)

/-- Length of the remainder the clip of cell c against the bisector of v
and c's site would produce. -/
def remLen (G : GeoKernel) (v : Vec) (c : cell) : Nat :=
  (G.clip c.area.data (perpendicularBisector G v c.site)).2.2.length

/-- An executable fuel bound for the cascade: the worklist length plus
the total remainder length over all cells, plus one. -/
def cascadeBound (G : GeoKernel) (v : Vec) (st : CascadeState) : Nat :=
  st.rC.length + (st.cells.map (remLen G v)).sum + 1

/-- The cascade while-loop, run with the executable fuel bound (shown
sufficient below: the loop always halts within it). -/
def runCascade (G : GeoKernel) (v : Vec) (st : CascadeState) : CascadeState :=
  (cascadeFuel G v (cascadeBound G v st) st).getD st

/-- Bootstrap square (voronoi.h lines 255-267): the axis-aligned square of
half-width bbs centered at v, vertices in source order. -/
def boundingSquare (bbs : Nat) (v : Vec) : List Vec :=
  [⟨v.x - (bbs : ℤ), v.y - (bbs : ℤ)⟩, ⟨v.x + (bbs : ℤ), v.y - (bbs : ℤ)⟩,
   ⟨v.x + (bbs : ℤ), v.y + (bbs : ℤ)⟩, ⟨v.x - (bbs : ℤ), v.y + (bbs : ℤ)⟩]

/-- voronoi::operator+ (const cell &) (voronoi.h lines 108-273), with the
template parameter boundingBoxSize passed as bbs: empty diagram boots the
bounding square cell; otherwise point location scans for the first cell
containing the site (returning the diagram unchanged when none does), the
located cell is clipped against the perpendicular bisector, the side
containing the located site is assigned back and the other side seeds the
new cell, the neighbor cascade runs on the clip remainder, and finally
the new cell is added to the cell set.  When neither side contains the
located site, the fallback adds cell(v, side B, colour) to the cell set
directly; when the clip does not yield both sides, the diagram is
returned unchanged. -/
def insertCell (G : GeoKernel) (bbs : Nat) (w : voronoi) (c : cell) : voronoi :=
  if 0 < w.cells.length then
    match w.cells.findIdx? (fun cl => G.contains cl.area.data c.site) with
    | none => w
    | some nc =>
      match w.cells[nc]? with
      | none => w
      | some cnear =>
        let rd := G.clip cnear.area.data (perpendicularBisector G c.site cnear.site)
        match rd.1, rd.2.1 with
        | some rA, some rB =>
          if G.contains rA cnear.site then
            let fin := runCascade G c.site
              ⟨w.cells.set nc ⟨cnear.site, ⟨rA, cnear.colour⟩, cnear.colour⟩,
               [nc], rB, rd.2.2⟩
            ⟨setAdd fin.cells ⟨c.site, ⟨fin.newCell, c.colour⟩, c.colour⟩⟩
          else if G.contains rB cnear.site then
            let fin := runCascade G c.site
              ⟨w.cells.set nc ⟨cnear.site, ⟨rB, cnear.colour⟩, cnear.colour⟩,
               [nc], rA, rd.2.2⟩
            ⟨setAdd fin.cells ⟨c.site, ⟨fin.newCell, c.colour⟩, c.colour⟩⟩
          else
            ⟨setAdd w.cells ⟨c.site, ⟨rB, c.colour⟩, c.colour⟩⟩
        | _, _ => w
  else
    ⟨setAdd w.cells ⟨c.site, ⟨boundingSquare bbs c.site, c.colour⟩, c.colour⟩⟩

/-- voronoi::operator+ (const vector &) (voronoi.h lines 103-106):
inserting a bare site inserts the cell built from it and the
default-constructed colour payload (modelled as 0; the default cell
constructor leaves the area polygon empty with default colour). -/
def insertVec (G : GeoKernel) (bbs : Nat) (w : voronoi) (v : Vec) : voronoi :=
  insertCell G bbs w ⟨v, ⟨[], 0⟩, 0⟩

/-- A trivial concrete kernel: nothing contains anything, clips fail. -/
def K0 : GeoKernel :=
  ⟨fun _ _ => false, fun _ _ => (none, none, []), fun a b => a ++ b,
   fun d => ⟨-d.y, d.x⟩, fun a b => vadd a b⟩

/-- Total remainder length over the not-yet-used cells. -/
def unusedSum (G : GeoKernel) (v : Vec) (cells : List cell) (used : List Nat) : Nat :=
  ∑ j ∈ (Finset.range cells.length).filter (fun j => j ∉ used),
    (cells[j]?).elim 0 (remLen G v)

/-- The termination potential of a cascade state. -/
def potential (G : GeoKernel) (v : Vec) (st : CascadeState) : Nat :=
  st.rC.length + unusedSum G v st.cells st.used

/-! ### Derived notions and concrete fixtures -/

/-- The list of sites of a diagram. -/
def sites (w : voronoi) : List Vec := w.cells.map cell.site

/-- Point location succeeds: some cell's polygon contains v. -/
def inBounds (G : GeoKernel) (w : voronoi) (v : Vec) : Bool :=
  w.cells.any (fun cl => G.contains cl.area.data v)

/-- v coincides with an already inserted site. -/
def isDuplicate (w : voronoi) (v : Vec) : Bool :=
  w.cells.any (fun cl => cl.site == v)

/-- A successful insertion in the sense of the specification: the first
insertion always succeeds; later ones succeed when the site is in bounds
and duplicates no inserted site. -/
def successful (G : GeoKernel) (w : voronoi) (v : Vec) : Bool :=
  if w.cells.isEmpty then true else inBounds G w v && !(isDuplicate w v)

/-- Fold a sequence of bare-site insertions. -/
def insertAll (G : GeoKernel) (bbs : Nat) (w : voronoi) (vs : List Vec) : voronoi :=
  vs.foldl (insertVec G bbs) w

/-- Number of successful insertions along a sequence. -/
def successCount (G : GeoKernel) (bbs : Nat) : voronoi → List Vec → Nat
  | _, [] => 0
  | w, v :: vs =>
    (if successful G w v then 1 else 0) + successCount G bbs (insertVec G bbs w v) vs

/-- The specification's contract for the clip collaborator on
non-degenerate input: the bisector of two distinct points, one of which
lies in the polygon, separates the polygon into two (possibly empty-area
but present) sides. -/
def SeparatingClip (G : GeoKernel) : Prop :=
  ∀ (P : List Vec) (u v2 : Vec), G.contains P v2 = true → v2 ≠ u →
    ∃ a b rem, G.clip P (perpendicularBisector G v2 u) = (some a, some b, rem)

/-- Membership-based containment, constant clip splitting into vertex
lists around (7,7) and (8,8) with empty remainder. -/
def Kmem : GeoKernel :=
  ⟨fun P p => decide (p ∈ P), fun _ _ => (some [⟨7, 7⟩], some [⟨8, 8⟩], []),
   fun a b => a ++ b, fun d => ⟨-d.y, d.x⟩, vadd⟩

/-- Membership-based containment, constant clip whose side A is the
single vertex (50,50). -/
def Kc5 : GeoKernel :=
  ⟨fun P p => decide (p ∈ P), fun _ _ => (some [⟨50, 50⟩], some [⟨60, 60⟩], []),
   fun a b => a ++ b, fun d => ⟨-d.y, d.x⟩, vadd⟩

/-- Everything contains everything; clip always returns side A = [(9,9)]
and an empty side B. -/
def Kdup : GeoKernel :=
  ⟨fun _ _ => true, fun _ _ => (some [⟨9, 9⟩], some [], []),
   fun a b => a ++ b, fun d => ⟨-d.y, d.x⟩, vadd⟩

/-- Everything contains everything; clip always splits (a separating
kernel). -/
def Ksep : GeoKernel :=
  ⟨fun _ _ => true, fun _ _ => (some [], some [], []),
   fun a b => a ++ b, fun d => ⟨-d.y, d.x⟩, vadd⟩

/-- One-cell diagram whose polygon is the single vertex (1,1). -/
def w1 : voronoi := ⟨[⟨⟨0, 0⟩, ⟨[⟨1, 1⟩], 0⟩, 0⟩]⟩

/-- One-cell diagram whose polygon is the single vertex (9,9). -/
def w2 : voronoi := ⟨[⟨⟨0, 0⟩, ⟨[⟨9, 9⟩], 0⟩, 0⟩]⟩

/-- The bare cell for site (9,9). -/
def c2 : cell := ⟨⟨9, 9⟩, ⟨[], 0⟩, 0⟩

/-- Cascade state with cell 0 used and two unused cells both containing
the single worklist point (9,9). -/
def stx : CascadeState :=
  ⟨[⟨⟨1, 2⟩, ⟨[], 0⟩, 0⟩, ⟨⟨50, 50⟩, ⟨[⟨9, 9⟩], 0⟩, 0⟩,
    ⟨⟨50, 50⟩, ⟨[⟨9, 9⟩], 0⟩, 0⟩], [0], [], [⟨9, 9⟩]⟩

/-- Cascade state with a single unused cell containing (9,9). -/
def st9 : CascadeState := ⟨[⟨⟨0, 0⟩, ⟨[⟨9, 9⟩], 0⟩, 0⟩], [], [], []⟩

/-- One-cell diagram whose cell sits at the origin. -/
def wdup : voronoi := ⟨[⟨⟨0, 0⟩, ⟨[⟨0, 0⟩], 0⟩, 0⟩]⟩

/-- One-cell diagram with site (7,7) and polygon [(9,9)]. -/
def w4 : voronoi := ⟨[⟨⟨7, 7⟩, ⟨[⟨9, 9⟩], 0⟩, 0⟩]⟩

/-- Rewrite a polygon's colour tag. -/
def pmap (f : Nat → Nat) (p : polygon) : polygon := ⟨p.data, f p.colour⟩

/-- Rewrite a cell's colour payloads. -/
def cmap (f : Nat → Nat) (c : cell) : cell := ⟨c.site, pmap f c.area, f c.colour⟩

/-- Rewrite all colour payloads of a diagram. -/
def vmap (f : Nat → Nat) (w : voronoi) : voronoi := ⟨w.cells.map (cmap f)⟩

/-- Rewrite all colour payloads of a cascade state. -/
def smap (f : Nat → Nat) (st : CascadeState) : CascadeState :=
  ⟨st.cells.map (cmap f), st.used, st.newCell, st.rC⟩


/-! ### Generic sweep invariants -/

theorem cascadeSweep_nil (G : GeoKernel) (v q : Vec) (s : CascadeState) :
    cascadeSweep G v q [] s = s := rfl

theorem cascadeSweep_cons (G : GeoKernel) (v q : Vec) (k : Nat) (ks : List Nat)
    (s : CascadeState) :
    cascadeSweep G v q (k :: ks) s = cascadeSweep G v q ks (cascadeCellStep G v q s k) :=
  rfl

/-- Any reflexive and transitive binary property preserved by a single
cascade cell step is preserved by a whole sweep. -/
theorem sweep_rel (G : GeoKernel) (v q : Vec)
    (P : CascadeState → CascadeState → Prop)
    (hrefl : ∀ s, P s s)
    (htrans : ∀ a b c, P a b → P b c → P a c)
    (hstep : ∀ s k, P s (cascadeCellStep G v q s k)) :
    ∀ ks s, P s (cascadeSweep G v q ks s) := by
  intro ks
  induction ks with
  | nil => intro s; exact hrefl s
  | cons k ks ih =>
    intro s
    exact htrans _ _ _ (hstep s k) (ih (cascadeCellStep G v q s k))

/-- Setting an index of a list to the element it already holds is a no-op. -/
theorem list_set_same {α : Type} (l : List α) (k : Nat) (a : α)
    (h : l[k]? = some a) : l.set k a = l := by
  induction l generalizing k with
  | nil => rfl
  | cons hd tl ih =>
    cases k with
    | zero => simp_all
    | succ m =>
      simp only [List.getElem?_cons_succ] at h
      simp [List.set, ih m h]

/-- Exhaustive description of a single cascade cell step: either it is a
no-op (the cell is used, out of range, or does not contain q), or the
cell is freshly marked used, its slot either kept or overwritten by a
cell with the same site, and the worklist either kept or extended by the
clip remainder of that cell. -/
theorem cascadeCellStep_cases (G : GeoKernel) (v q : Vec) (st : CascadeState)
    (k : Nat) :
    cascadeCellStep G v q st k = st ∨
    ∃ ck, st.cells[k]? = some ck ∧ st.used.contains k = false ∧
      (cascadeCellStep G v q st k).used = k :: st.used ∧
      ((cascadeCellStep G v q st k).cells = st.cells ∨
        ∃ c2, c2.site = ck.site ∧
          (cascadeCellStep G v q st k).cells = st.cells.set k c2) ∧
      ((cascadeCellStep G v q st k).rC = st.rC ∨
        ∃ rem, rem.length = remLen G v ck ∧
          (cascadeCellStep G v q st k).rC = st.rC ++ rem) := by
  cases hu : st.used.contains k with
  | true =>
    refine Or.inl ?_
    simp only [cascadeCellStep, hu]
    rfl
  | false =>
    cases hg : st.cells[k]? with
    | none =>
      refine Or.inl ?_
      simp only [cascadeCellStep, hu, hg]
      rfl
    | some ck =>
      cases hq : G.contains ck.area.data q with
      | false =>
        refine Or.inl ?_
        simp only [cascadeCellStep, hu, hg, hq]
        rfl
      | true =>
        rcases hclip : G.clip ck.area.data (perpendicularBisector G v ck.site) with
          ⟨o1, o2, rem⟩
        have hrem : rem.length = remLen G v ck := by simp [remLen, hclip]
        cases o1 with
        | none =>
          have hstep : cascadeCellStep G v q st k =
              ⟨st.cells, k :: st.used, st.newCell, st.rC⟩ := by
            simp only [cascadeCellStep, hu, hg, hq, hclip]
            rfl
          rw [hstep]
          exact Or.inr ⟨ck, rfl, rfl, rfl, Or.inl rfl, Or.inl rfl⟩
        | some rD =>
          cases o2 with
          | none =>
            have hstep : cascadeCellStep G v q st k =
                ⟨st.cells, k :: st.used, st.newCell, st.rC⟩ := by
              simp only [cascadeCellStep, hu, hg, hq, hclip]
              rfl
            rw [hstep]
            exact Or.inr ⟨ck, rfl, rfl, rfl, Or.inl rfl, Or.inl rfl⟩
          | some rE =>
            cases hA : G.contains rD ck.site with
            | true =>
              have hstep : cascadeCellStep G v q st k =
                  ⟨st.cells.set k ⟨ck.site, ⟨rD, ck.colour⟩, ck.colour⟩,
                   k :: st.used, G.punion st.newCell rE, st.rC ++ rem⟩ := by
                simp only [cascadeCellStep, hu, hg, hq, hclip, hA]
                rfl
              rw [hstep]
              exact Or.inr ⟨ck, rfl, rfl, rfl,
                Or.inr ⟨⟨ck.site, ⟨rD, ck.colour⟩, ck.colour⟩, rfl, rfl⟩,
                Or.inr ⟨rem, hrem, rfl⟩⟩
            | false =>
              cases hB : G.contains rE ck.site with
              | true =>
                have hstep : cascadeCellStep G v q st k =
                    ⟨st.cells.set k ⟨ck.site, ⟨rE, ck.colour⟩, ck.colour⟩,
                     k :: st.used, G.punion st.newCell rD, st.rC ++ rem⟩ := by
                  simp only [cascadeCellStep, hu, hg, hq, hclip, hA, hB]
                  rfl
                rw [hstep]
                exact Or.inr ⟨ck, rfl, rfl, rfl,
                  Or.inr ⟨⟨ck.site, ⟨rE, ck.colour⟩, ck.colour⟩, rfl, rfl⟩,
                  Or.inr ⟨rem, hrem, rfl⟩⟩
              | false =>
                have hstep : cascadeCellStep G v q st k =
                    ⟨st.cells, k :: st.used, st.newCell, st.rC ++ rem⟩ := by
                  simp only [cascadeCellStep, hu, hg, hq, hclip, hA, hB]
                  rfl
                rw [hstep]
                exact Or.inr ⟨ck, rfl, rfl, rfl, Or.inl rfl,
                  Or.inr ⟨rem, hrem, rfl⟩⟩

/-- A single cell step never changes the number of cells. -/
theorem cascadeCellStep_length (G : GeoKernel) (v q : Vec) (st : CascadeState)
    (k : Nat) :
    (cascadeCellStep G v q st k).cells.length = st.cells.length := by
  rcases cascadeCellStep_cases G v q st k with h | ⟨ck, hg, hu, hused, hcells, hrC⟩
  · rw [h]
  · rcases hcells with h2 | ⟨c2, hsite, h2⟩
    · rw [h2]
    · rw [h2]; simp

/-- A single cell step never changes any cell's site. -/
theorem cascadeCellStep_sites (G : GeoKernel) (v q : Vec) (st : CascadeState)
    (k : Nat) :
    (cascadeCellStep G v q st k).cells.map cell.site = st.cells.map cell.site := by
  rcases cascadeCellStep_cases G v q st k with h | ⟨ck, hg, hu, hused, hcells, hrC⟩
  · rw [h]
  · rcases hcells with h2 | ⟨c2, hsite, h2⟩
    · rw [h2]
    · rw [h2, List.map_set]
      refine list_set_same _ _ _ ?_
      simp [hg, hsite]

/-- A single cell step only adds to the used set. -/
theorem cascadeCellStep_used_mono (G : GeoKernel) (v q : Vec) (st : CascadeState)
    (k : Nat) :
    ∀ x ∈ st.used, x ∈ (cascadeCellStep G v q st k).used := by
  intro x hx
  rcases cascadeCellStep_cases G v q st k with h | ⟨ck, hg, hu, hused, hcells, hrC⟩
  · rw [h]; exact hx
  · rw [hused]; exact List.mem_cons_of_mem _ hx

/-- A single cell step leaves the slot of every already-used cell
untouched. -/
theorem cascadeCellStep_preserve_used (G : GeoKernel) (v q : Vec)
    (st : CascadeState) (k : Nat) :
    ∀ j ∈ st.used, (cascadeCellStep G v q st k).cells[j]? = st.cells[j]? := by
  intro j hj
  rcases cascadeCellStep_cases G v q st k with h | ⟨ck, hg, hu, hused, hcells, hrC⟩
  · rw [h]
  · rcases hcells with h2 | ⟨c2, hsite, h2⟩
    · rw [h2]
    · rw [h2]
      have hk : k ∉ st.used := by simpa using hu
      refine List.getElem?_set_ne ?_
      intro hkj
      subst hkj
      exact hk hj

/-- A single cell step only appends to the worklist. -/
theorem cascadeCellStep_rC_extend (G : GeoKernel) (v q : Vec) (st : CascadeState)
    (k : Nat) :
    ∃ t, (cascadeCellStep G v q st k).rC = st.rC ++ t := by
  rcases cascadeCellStep_cases G v q st k with h | ⟨ck, hg, hu, hused, hcells, hrC⟩
  · exact ⟨[], by simp [h]⟩
  · rcases hrC with h2 | ⟨rem, hrem, h2⟩
    · exact ⟨[], by simp [h2]⟩
    · exact ⟨rem, h2⟩

/-! ### Sweep-level invariants -/

theorem cascadeSweep_length (G : GeoKernel) (v q : Vec) (ks : List Nat)
    (st : CascadeState) :
    (cascadeSweep G v q ks st).cells.length = st.cells.length :=
  sweep_rel G v q (fun a b => b.cells.length = a.cells.length) (fun _ => rfl)
    (fun _ _ _ h1 h2 => h2.trans h1) (fun s k => cascadeCellStep_length G v q s k)
    ks st

theorem cascadeSweep_sites (G : GeoKernel) (v q : Vec) (ks : List Nat)
    (st : CascadeState) :
    (cascadeSweep G v q ks st).cells.map cell.site = st.cells.map cell.site :=
  sweep_rel G v q (fun a b => b.cells.map cell.site = a.cells.map cell.site)
    (fun _ => rfl) (fun _ _ _ h1 h2 => h2.trans h1)
    (fun s k => cascadeCellStep_sites G v q s k) ks st

theorem cascadeSweep_used_mono (G : GeoKernel) (v q : Vec) (ks : List Nat)
    (st : CascadeState) :
    ∀ x ∈ st.used, x ∈ (cascadeSweep G v q ks st).used :=
  sweep_rel G v q (fun a b => ∀ x ∈ a.used, x ∈ b.used) (fun _ _ hx => hx)
    (fun _ _ _ h1 h2 x hx => h2 x (h1 x hx))
    (fun s k => cascadeCellStep_used_mono G v q s k) ks st

theorem cascadeSweep_preserve_used (G : GeoKernel) (v q : Vec) (ks : List Nat)
    (st : CascadeState) :
    ∀ j ∈ st.used, (cascadeSweep G v q ks st).cells[j]? = st.cells[j]? :=
  (sweep_rel G v q
    (fun a b => (∀ x ∈ a.used, x ∈ b.used) ∧ ∀ j ∈ a.used, b.cells[j]? = a.cells[j]?)
    (fun _ => ⟨fun _ hx => hx, fun _ _ => rfl⟩)
    (fun _ _ _ h1 h2 =>
      ⟨fun x hx => h2.1 x (h1.1 x hx),
       fun j hj => (h2.2 j (h1.1 j hj)).trans (h1.2 j hj)⟩)
    (fun s k =>
      ⟨cascadeCellStep_used_mono G v q s k, cascadeCellStep_preserve_used G v q s k⟩)
    ks st).2

theorem cascadeSweep_rC_extend (G : GeoKernel) (v q : Vec) (ks : List Nat)
    (st : CascadeState) :
    ∃ t, (cascadeSweep G v q ks st).rC = st.rC ++ t :=
  sweep_rel G v q (fun a b => ∃ t, b.rC = a.rC ++ t) (fun _ => ⟨[], by simp⟩)
    (fun _ _ _ h1 h2 => by
      rcases h1 with ⟨t1, h1⟩
      rcases h2 with ⟨t2, h2⟩
      exact ⟨t1 ++ t2, by rw [h2, h1, List.append_assoc]⟩)
    (fun s k => cascadeCellStep_rC_extend G v q s k) ks st

/-! ### The cascade potential and its decrease -/

theorem list_sum_getElem {α : Type} (l : List α) (f : α → Nat) :
    ∑ j ∈ Finset.range l.length, (l[j]?).elim 0 f = (l.map f).sum := by
  induction l with
  | nil => simp
  | cons a t ih =>
    rw [List.length_cons, Finset.sum_range_succ']
    have hs : ∀ j, (((a :: t)[j+1]?).elim 0 f) = (t[j]?).elim 0 f := fun j => by
      rw [List.getElem?_cons_succ]
    rw [Finset.sum_congr rfl (fun j _ => hs j), ih, List.map_cons, List.sum_cons,
      List.getElem?_cons_zero]
    exact Nat.add_comm _ _

theorem unusedSum_le (G : GeoKernel) (v : Vec) (cells : List cell)
    (used : List Nat) :
    unusedSum G v cells used ≤ (cells.map (remLen G v)).sum := by
  rw [← list_sum_getElem cells (remLen G v)]
  exact Finset.sum_le_sum_of_subset (Finset.filter_subset _ _)

/-- Marking a fresh in-range index used removes exactly its remainder term
from the unused sum, provided no other slot changes. -/
theorem unusedSum_insert (G : GeoKernel) (v : Vec) (cells : List cell)
    (used : List Nat) (k : Nat) (ck : cell) (hg : cells[k]? = some ck)
    (hk : k ∉ used) (cells2 : List cell) (hlen : cells2.length = cells.length)
    (hoth : ∀ j, j ≠ k → cells2[j]? = cells[j]?) :
    unusedSum G v cells2 (k :: used) + remLen G v ck = unusedSum G v cells used := by
  have hklt : k < cells.length := by
    rcases List.getElem?_eq_some_iff.1 hg with ⟨h, _⟩
    exact h
  have hkA : k ∈ (Finset.range cells.length).filter (fun j => j ∉ used) := by
    simp [Finset.mem_filter, Finset.mem_range, hklt, hk]
  have hA2 : (Finset.range cells2.length).filter (fun j => j ∉ (k :: used)) =
      ((Finset.range cells.length).filter (fun j => j ∉ used)).erase k := by
    ext j
    simp only [Finset.mem_filter, Finset.mem_range, Finset.mem_erase, hlen,
      List.mem_cons, not_or]
    constructor
    · rintro ⟨h1, h2, h3⟩
      exact ⟨h2, h1, h3⟩
    · rintro ⟨h1, h2, h3⟩
      exact ⟨h2, h1, h3⟩
  rw [unusedSum, hA2, Finset.sum_congr rfl
    (fun j hj => by rw [hoth j (Finset.ne_of_mem_erase hj)])]
  have hadd := Finset.add_sum_erase
    ((Finset.range cells.length).filter (fun j => j ∉ used))
    (fun j => (cells[j]?).elim 0 (remLen G v)) hkA
  rw [Nat.add_comm]
  rw [unusedSum]
  rw [← hadd]
  simp [hg]

/-- A single cell step never increases the potential. -/
theorem cascadeCellStep_potential (G : GeoKernel) (v q : Vec) (st : CascadeState)
    (k : Nat) :
    (cascadeCellStep G v q st k).rC.length +
      unusedSum G v (cascadeCellStep G v q st k).cells
        (cascadeCellStep G v q st k).used ≤
    st.rC.length + unusedSum G v st.cells st.used := by
  rcases cascadeCellStep_cases G v q st k with h | ⟨ck, hg, hu, hused, hcells, hrC⟩
  · rw [h]
  · have hk : k ∉ st.used := by simpa using hu
    have hlen : (cascadeCellStep G v q st k).cells.length = st.cells.length :=
      cascadeCellStep_length G v q st k
    have hoth : ∀ j, j ≠ k → (cascadeCellStep G v q st k).cells[j]? = st.cells[j]? := by
      rcases hcells with h2 | ⟨c2, hs, h2⟩
      · intro j _
        rw [h2]
      · intro j hj
        rw [h2]
        exact List.getElem?_set_ne (fun he => hj he.symm)
    have hsum := unusedSum_insert G v st.cells st.used k ck hg hk
      (cascadeCellStep G v q st k).cells hlen hoth
    rw [hused]
    rcases hrC with h2 | ⟨rem, hrem, h2⟩
    · rw [h2]
      omega
    · rw [h2, List.length_append, hrem]
      omega

/-- A whole sweep never increases the potential. -/
theorem cascadeSweep_potential (G : GeoKernel) (v q : Vec) (ks : List Nat)
    (st : CascadeState) :
    (cascadeSweep G v q ks st).rC.length +
      unusedSum G v (cascadeSweep G v q ks st).cells (cascadeSweep G v q ks st).used ≤
    st.rC.length + unusedSum G v st.cells st.used :=
  sweep_rel G v q
    (fun a b => b.rC.length + unusedSum G v b.cells b.used ≤
      a.rC.length + unusedSum G v a.cells a.used)
    (fun _ => le_refl _) (fun _ _ _ h1 h2 => h2.trans h1)
    (fun s k => cascadeCellStep_potential G v q s k) ks st

/-- Each iteration of the cascade while-loop on a non-empty worklist
strictly decreases the potential. -/
theorem cascadeIter_potential (G : GeoKernel) (v : Vec) (st : CascadeState)
    (h : st.rC ≠ []) :
    potential G v (cascadeIter G v st) < potential G v st := by
  rcases hrc : st.rC with _ | ⟨q, rest⟩
  · exact absurd hrc h
  · have hiter : cascadeIter G v st =
        ⟨(cascadeSweep G v q (List.range st.cells.length) st).cells,
         (cascadeSweep G v q (List.range st.cells.length) st).used,
         (cascadeSweep G v q (List.range st.cells.length) st).newCell,
         (cascadeSweep G v q (List.range st.cells.length) st).rC.erase q⟩ := by
      simp only [cascadeIter, hrc]
    have hsw := cascadeSweep_potential G v q (List.range st.cells.length) st
    rcases cascadeSweep_rC_extend G v q (List.range st.cells.length) st with ⟨t, ht⟩
    rw [hrc] at ht
    have ht2 : (cascadeSweep G v q (List.range st.cells.length) st).rC =
        q :: (rest ++ t) := by
      rw [ht]
      rfl
    have herase : (cascadeSweep G v q (List.range st.cells.length) st).rC.erase q =
        rest ++ t := by
      rw [ht2]
      exact List.erase_cons_head q (rest ++ t)
    rw [potential, hiter, herase]
    rw [ht2] at hsw
    rw [hrc] at hsw
    simp only [List.length_cons, List.length_append] at hsw ⊢
    rw [potential, hrc]
    simp only [List.length_cons, List.length_append]
    omega

/-- With fuel exceeding the potential, the cascade while-loop halts. -/
theorem cascadeFuel_some_of_lt (G : GeoKernel) (v : Vec) :
    ∀ n st, potential G v st < n → ∃ fin, cascadeFuel G v n st = some fin := by
  intro n
  induction n with
  | zero => exact fun st h => absurd h (Nat.not_lt_zero _)
  | succ n ih =>
    intro st h
    by_cases hrc : st.rC = []
    · exact ⟨st, by simp [cascadeFuel, hrc]⟩
    · have hlt := cascadeIter_potential G v st hrc
      rcases ih (cascadeIter G v st) (by omega) with ⟨fin, hfin⟩
      exact ⟨fin, by simp [cascadeFuel, hrc, hfin]⟩

theorem potential_lt_bound (G : GeoKernel) (v : Vec) (st : CascadeState) :
    potential G v st < cascadeBound G v st := by
  have := unusedSum_le G v st.cells st.used
  rw [potential, cascadeBound]
  omega

/-- The executable fuel bound always suffices: runCascade is the halt
state of the while-loop. -/
theorem cascadeFuel_bound_eq (G : GeoKernel) (v : Vec) (st : CascadeState) :
    cascadeFuel G v (cascadeBound G v st) st = some (runCascade G v st) := by
  rcases cascadeFuel_some_of_lt G v (cascadeBound G v st) st
    (potential_lt_bound G v st) with ⟨fin, h⟩
  rw [runCascade, h]
  rfl

/-! ### Iteration- and fuel-level invariants -/

theorem cascadeIter_length (G : GeoKernel) (v : Vec) (st : CascadeState) :
    (cascadeIter G v st).cells.length = st.cells.length := by
  rcases hrc : st.rC with _ | ⟨q, rest⟩
  · simp only [cascadeIter, hrc]
  · simp only [cascadeIter, hrc]
    exact cascadeSweep_length G v q _ st

theorem cascadeIter_sites (G : GeoKernel) (v : Vec) (st : CascadeState) :
    (cascadeIter G v st).cells.map cell.site = st.cells.map cell.site := by
  rcases hrc : st.rC with _ | ⟨q, rest⟩
  · simp only [cascadeIter, hrc]
  · simp only [cascadeIter, hrc]
    exact cascadeSweep_sites G v q _ st

theorem cascadeIter_used_mono (G : GeoKernel) (v : Vec) (st : CascadeState) :
    ∀ x ∈ st.used, x ∈ (cascadeIter G v st).used := by
  rcases hrc : st.rC with _ | ⟨q, rest⟩
  · simp only [cascadeIter, hrc]
    exact fun x hx => hx
  · simp only [cascadeIter, hrc]
    exact cascadeSweep_used_mono G v q _ st

theorem cascadeIter_preserve_used (G : GeoKernel) (v : Vec) (st : CascadeState) :
    ∀ j ∈ st.used, (cascadeIter G v st).cells[j]? = st.cells[j]? := by
  rcases hrc : st.rC with _ | ⟨q, rest⟩
  · simp only [cascadeIter, hrc]
    exact fun j _ => trivial
  · simp only [cascadeIter, hrc]
    exact cascadeSweep_preserve_used G v q _ st

theorem cascadeFuel_length (G : GeoKernel) (v : Vec) :
    ∀ n st fin, cascadeFuel G v n st = some fin →
      fin.cells.length = st.cells.length := by
  intro n
  induction n with
  | zero =>
    intro st fin h
    simp only [cascadeFuel] at h
    split at h
    · cases h
      rfl
    · cases h
  | succ n ih =>
    intro st fin h
    simp only [cascadeFuel] at h
    split at h
    · cases h
      rfl
    · rw [ih (cascadeIter G v st) fin h, cascadeIter_length]

theorem cascadeFuel_sites (G : GeoKernel) (v : Vec) :
    ∀ n st fin, cascadeFuel G v n st = some fin →
      fin.cells.map cell.site = st.cells.map cell.site := by
  intro n
  induction n with
  | zero =>
    intro st fin h
    simp only [cascadeFuel] at h
    split at h
    · cases h
      rfl
    · cases h
  | succ n ih =>
    intro st fin h
    simp only [cascadeFuel] at h
    split at h
    · cases h
      rfl
    · rw [ih (cascadeIter G v st) fin h, cascadeIter_sites]

theorem cascadeFuel_preserve_used (G : GeoKernel) (v : Vec) :
    ∀ n st fin, cascadeFuel G v n st = some fin →
      (∀ x ∈ st.used, x ∈ fin.used) ∧
      ∀ j ∈ st.used, fin.cells[j]? = st.cells[j]? := by
  intro n
  induction n with
  | zero =>
    intro st fin h
    simp only [cascadeFuel] at h
    split at h
    · cases h
      exact ⟨fun _ hx => hx, fun _ _ => rfl⟩
    · cases h
  | succ n ih =>
    intro st fin h
    simp only [cascadeFuel] at h
    split at h
    · cases h
      exact ⟨fun _ hx => hx, fun _ _ => rfl⟩
    · rcases ih (cascadeIter G v st) fin h with ⟨hm, hp⟩
      refine ⟨fun x hx => hm x (cascadeIter_used_mono G v st x hx), fun j hj => ?_⟩
      rw [hp j (cascadeIter_used_mono G v st j hj), cascadeIter_preserve_used G v st j hj]

theorem cascadeFuel_rC_empty (G : GeoKernel) (v : Vec) :
    ∀ n st fin, cascadeFuel G v n st = some fin → fin.rC = [] := by
  intro n
  induction n with
  | zero =>
    intro st fin h
    simp only [cascadeFuel] at h
    split at h
    · cases h
      assumption
    · cases h
  | succ n ih =>
    intro st fin h
    simp only [cascadeFuel] at h
    split at h
    · cases h
      assumption
    · exact ih (cascadeIter G v st) fin h

theorem runCascade_length (G : GeoKernel) (v : Vec) (st : CascadeState) :
    (runCascade G v st).cells.length = st.cells.length :=
  cascadeFuel_length G v (cascadeBound G v st) st (runCascade G v st)
    (cascadeFuel_bound_eq G v st)

theorem runCascade_sites (G : GeoKernel) (v : Vec) (st : CascadeState) :
    (runCascade G v st).cells.map cell.site = st.cells.map cell.site :=
  cascadeFuel_sites G v (cascadeBound G v st) st (runCascade G v st)
    (cascadeFuel_bound_eq G v st)

theorem runCascade_preserve_used (G : GeoKernel) (v : Vec) (st : CascadeState) :
    ∀ j ∈ st.used, (runCascade G v st).cells[j]? = st.cells[j]? :=
  (cascadeFuel_preserve_used G v (cascadeBound G v st) st (runCascade G v st)
    (cascadeFuel_bound_eq G v st)).2

theorem runCascade_rC_empty (G : GeoKernel) (v : Vec) (st : CascadeState) :
    (runCascade G v st).rC = [] :=
  cascadeFuel_rC_empty G v (cascadeBound G v st) st (runCascade G v st)
    (cascadeFuel_bound_eq G v st)

/-! ### Equations for the insertion operation -/

/-- Point location succeeding yields the located cell and the fact that it
contains the query point. -/
theorem findIdx_some_get {α : Type} (l : List α) (p : α → Bool) (i : Nat)
    (h : l.findIdx? p = some i) : ∃ a, l[i]? = some a ∧ p a = true := by
  rcases List.findIdx?_eq_some_iff_getElem.1 h with ⟨hlt, hp, _⟩
  refine ⟨l[i], ?_, hp⟩
  exact (List.getElem?_eq_some_iff).2 ⟨hlt, rfl⟩

/-- Bootstrap (voronoi.h lines 253-270): inserting into the empty diagram
creates the single bounding-square cell around the site. -/
theorem insertCell_empty (G : GeoKernel) (bbs : Nat) (c : cell) :
    insertCell G bbs ⟨[]⟩ c =
      ⟨[⟨c.site, ⟨boundingSquare bbs c.site, c.colour⟩, c.colour⟩]⟩ := rfl

/-- Point location failing (voronoi.h lines 139-143): the diagram is
returned unchanged. -/
theorem insertCell_of_locate_fail (G : GeoKernel) (bbs : Nat) (w : voronoi)
    (c : cell) (hlen : 0 < w.cells.length)
    (hf : w.cells.findIdx? (fun cl => G.contains cl.area.data c.site) = none) :
    insertCell G bbs w c = w := by
  simp only [insertCell, if_pos hlen, hf]

/-- A clip that fails to produce both sides (voronoi.h line 161 false,
line 251): the diagram is returned unchanged. -/
theorem insertCell_of_clipfail (G : GeoKernel) (bbs : Nat) (w : voronoi)
    (c : cell) (nc : Nat) (cnear : cell) (o1 o2 : Option (List Vec))
    (rem : List Vec)
    (hf : w.cells.findIdx? (fun cl => G.contains cl.area.data c.site) = some nc)
    (hg : w.cells[nc]? = some cnear)
    (hclip : G.clip cnear.area.data (perpendicularBisector G c.site cnear.site) =
      (o1, o2, rem))
    (hor : o1 = none ∨ o2 = none) :
    insertCell G bbs w c = w := by
  have hlen : 0 < w.cells.length := by
    rcases List.getElem?_eq_some_iff.1 hg with ⟨h, _⟩
    omega
  simp only [insertCell, if_pos hlen, hf, hg, hclip]
  rcases hor with h | h
  · subst h
    cases o2 <;> rfl
  · subst h
    cases o1 <;> rfl

/-- Side A contains the located site (voronoi.h lines 169-174): side A is
assigned back, side B seeds the new cell, the cascade runs on the
remainder, and the new cell is added to the set. -/
theorem insertCell_of_sideA (G : GeoKernel) (bbs : Nat) (w : voronoi)
    (c : cell) (nc : Nat) (cnear : cell) (rA rB rem : List Vec)
    (hf : w.cells.findIdx? (fun cl => G.contains cl.area.data c.site) = some nc)
    (hg : w.cells[nc]? = some cnear)
    (hclip : G.clip cnear.area.data (perpendicularBisector G c.site cnear.site) =
      (some rA, some rB, rem))
    (hA : G.contains rA cnear.site = true) :
    insertCell G bbs w c =
      ⟨setAdd
        (runCascade G c.site
          ⟨w.cells.set nc ⟨cnear.site, ⟨rA, cnear.colour⟩, cnear.colour⟩,
           [nc], rB, rem⟩).cells
        ⟨c.site,
         ⟨(runCascade G c.site
            ⟨w.cells.set nc ⟨cnear.site, ⟨rA, cnear.colour⟩, cnear.colour⟩,
             [nc], rB, rem⟩).newCell, c.colour⟩, c.colour⟩⟩ := by
  have hlen : 0 < w.cells.length := by
    rcases List.getElem?_eq_some_iff.1 hg with ⟨h, _⟩
    omega
  simp only [insertCell, if_pos hlen, hf, hg, hclip, hA]
  rfl

/-- Side B contains the located site while side A does not (voronoi.h
lines 175-180). -/
theorem insertCell_of_sideB (G : GeoKernel) (bbs : Nat) (w : voronoi)
    (c : cell) (nc : Nat) (cnear : cell) (rA rB rem : List Vec)
    (hf : w.cells.findIdx? (fun cl => G.contains cl.area.data c.site) = some nc)
    (hg : w.cells[nc]? = some cnear)
    (hclip : G.clip cnear.area.data (perpendicularBisector G c.site cnear.site) =
      (some rA, some rB, rem))
    (hA : G.contains rA cnear.site = false)
    (hB : G.contains rB cnear.site = true) :
    insertCell G bbs w c =
      ⟨setAdd
        (runCascade G c.site
          ⟨w.cells.set nc ⟨cnear.site, ⟨rB, cnear.colour⟩, cnear.colour⟩,
           [nc], rA, rem⟩).cells
        ⟨c.site,
         ⟨(runCascade G c.site
            ⟨w.cells.set nc ⟨cnear.site, ⟨rB, cnear.colour⟩, cnear.colour⟩,
             [nc], rA, rem⟩).newCell, c.colour⟩, c.colour⟩⟩ := by
  have hlen : 0 < w.cells.length := by
    rcases List.getElem?_eq_some_iff.1 hg with ⟨h, _⟩
    omega
  simp only [insertCell, if_pos hlen, hf, hg, hclip, hA, hB]
  rfl

/-- Neither side contains the located site (voronoi.h lines 181-185): the
fallback adds cell(v, side B, colour) directly to the cell set. -/
theorem insertCell_of_noside (G : GeoKernel) (bbs : Nat) (w : voronoi)
    (c : cell) (nc : Nat) (cnear : cell) (rA rB rem : List Vec)
    (hf : w.cells.findIdx? (fun cl => G.contains cl.area.data c.site) = some nc)
    (hg : w.cells[nc]? = some cnear)
    (hclip : G.clip cnear.area.data (perpendicularBisector G c.site cnear.site) =
      (some rA, some rB, rem))
    (hA : G.contains rA cnear.site = false)
    (hB : G.contains rB cnear.site = false) :
    insertCell G bbs w c = ⟨setAdd w.cells ⟨c.site, ⟨rB, c.colour⟩, c.colour⟩⟩ := by
  have hlen : 0 < w.cells.length := by
    rcases List.getElem?_eq_some_iff.1 hg with ⟨h, _⟩
    omega
  simp only [insertCell, if_pos hlen, hf, hg, hclip, hA, hB]
  rfl

/-! ### Case equations for a single cascade cell step -/

theorem cascadeCellStep_of_usedmem (G : GeoKernel) (v q : Vec) (st : CascadeState)
    (k : Nat) (h : k ∈ st.used) : cascadeCellStep G v q st k = st := by
  have hb : st.used.contains k = true := by simpa using h
  simp only [cascadeCellStep, hb]
  rfl

theorem cascadeCellStep_of_nocontain (G : GeoKernel) (v q : Vec)
    (st : CascadeState) (k : Nat) (ck : cell) (hg : st.cells[k]? = some ck)
    (hu : k ∉ st.used) (hq : G.contains ck.area.data q = false) :
    cascadeCellStep G v q st k = st := by
  have hb : st.used.contains k = false := by simpa using hu
  simp only [cascadeCellStep, hb, hg, hq]
  rfl

theorem cascadeCellStep_of_clipfail (G : GeoKernel) (v q : Vec)
    (st : CascadeState) (k : Nat) (ck : cell) (o1 o2 : Option (List Vec))
    (rem : List Vec) (hg : st.cells[k]? = some ck) (hu : k ∉ st.used)
    (hq : G.contains ck.area.data q = true)
    (hclip : G.clip ck.area.data (perpendicularBisector G v ck.site) = (o1, o2, rem))
    (hor : o1 = none ∨ o2 = none) :
    cascadeCellStep G v q st k = ⟨st.cells, k :: st.used, st.newCell, st.rC⟩ := by
  have hb : st.used.contains k = false := by simpa using hu
  simp only [cascadeCellStep, hb, hg, hq, hclip]
  rcases hor with h | h
  · subst h
    cases o2 <;> rfl
  · subst h
    cases o1 <;> rfl

theorem cascadeCellStep_of_sideD (G : GeoKernel) (v q : Vec) (st : CascadeState)
    (k : Nat) (ck : cell) (rD rE rem : List Vec) (hg : st.cells[k]? = some ck)
    (hu : k ∉ st.used) (hq : G.contains ck.area.data q = true)
    (hclip : G.clip ck.area.data (perpendicularBisector G v ck.site) =
      (some rD, some rE, rem))
    (hA : G.contains rD ck.site = true) :
    cascadeCellStep G v q st k =
      ⟨st.cells.set k ⟨ck.site, ⟨rD, ck.colour⟩, ck.colour⟩, k :: st.used,
       G.punion st.newCell rE, st.rC ++ rem⟩ := by
  have hb : st.used.contains k = false := by simpa using hu
  simp only [cascadeCellStep, hb, hg, hq, hclip, hA]
  rfl

theorem cascadeCellStep_of_sideE (G : GeoKernel) (v q : Vec) (st : CascadeState)
    (k : Nat) (ck : cell) (rD rE rem : List Vec) (hg : st.cells[k]? = some ck)
    (hu : k ∉ st.used) (hq : G.contains ck.area.data q = true)
    (hclip : G.clip ck.area.data (perpendicularBisector G v ck.site) =
      (some rD, some rE, rem))
    (hA : G.contains rD ck.site = false) (hB : G.contains rE ck.site = true) :
    cascadeCellStep G v q st k =
      ⟨st.cells.set k ⟨ck.site, ⟨rE, ck.colour⟩, ck.colour⟩, k :: st.used,
       G.punion st.newCell rD, st.rC ++ rem⟩ := by
  have hb : st.used.contains k = false := by simpa using hu
  simp only [cascadeCellStep, hb, hg, hq, hclip, hA, hB]
  rfl

theorem cascadeCellStep_of_noside (G : GeoKernel) (v q : Vec) (st : CascadeState)
    (k : Nat) (ck : cell) (rD rE rem : List Vec) (hg : st.cells[k]? = some ck)
    (hu : k ∉ st.used) (hq : G.contains ck.area.data q = true)
    (hclip : G.clip ck.area.data (perpendicularBisector G v ck.site) =
      (some rD, some rE, rem))
    (hA : G.contains rD ck.site = false) (hB : G.contains rE ck.site = false) :
    cascadeCellStep G v q st k =
      ⟨st.cells, k :: st.used, st.newCell, st.rC ++ rem⟩ := by
  have hb : st.used.contains k = false := by simpa using hu
  simp only [cascadeCellStep, hb, hg, hq, hclip, hA, hB]
  rfl

/-- Whenever an unused cell containing q is reached, it is marked used, no
matter how the clip turns out. -/
theorem cascadeCellStep_marks (G : GeoKernel) (v q : Vec) (st : CascadeState)
    (k : Nat) (ck : cell) (hg : st.cells[k]? = some ck) (hu : k ∉ st.used)
    (hq : G.contains ck.area.data q = true) :
    (cascadeCellStep G v q st k).used = k :: st.used := by
  rcases hclip : G.clip ck.area.data (perpendicularBisector G v ck.site) with
    ⟨o1, o2, rem⟩
  cases o1 with
  | none =>
    rw [cascadeCellStep_of_clipfail G v q st k ck none o2 rem hg hu hq hclip
      (Or.inl rfl)]
  | some rD =>
    cases o2 with
    | none =>
      rw [cascadeCellStep_of_clipfail G v q st k ck (some rD) none rem hg hu hq
        hclip (Or.inr rfl)]
    | some rE =>
      cases hA : G.contains rD ck.site with
      | true => rw [cascadeCellStep_of_sideD G v q st k ck rD rE rem hg hu hq hclip hA]
      | false =>
        cases hB : G.contains rE ck.site with
        | true =>
          rw [cascadeCellStep_of_sideE G v q st k ck rD rE rem hg hu hq hclip hA hB]
        | false =>
          rw [cascadeCellStep_of_noside G v q st k ck rD rE rem hg hu hq hclip hA hB]

/-- A sweep marks used every unused cell (whose index it visits) whose
polygon contains the popped point. -/
theorem cascadeSweep_hits (G : GeoKernel) (v q : Vec) (ks : List Nat)
    (st : CascadeState) (k : Nat) (ck : cell) (hk : k ∈ ks)
    (hg : st.cells[k]? = some ck) (hu : k ∉ st.used)
    (hq : G.contains ck.area.data q = true) :
    k ∈ (cascadeSweep G v q ks st).used := by
  induction ks generalizing st with
  | nil => cases hk
  | cons a ks ih =>
    rw [cascadeSweep_cons]
    by_cases hak : a = k
    · subst hak
      have hmem : a ∈ (cascadeCellStep G v q st a).used := by
        rw [cascadeCellStep_marks G v q st a ck hg hu hq]
        exact List.mem_cons_self a st.used
      exact cascadeSweep_used_mono G v q ks _ a hmem
    · have hk2 : k ∈ ks := by
        rcases List.mem_cons.1 hk with h | h
        · exact absurd h.symm hak
        · exact h
      rcases cascadeCellStep_cases G v q st a with h | ⟨ca, hga, hua, husa, hca, hra⟩
      · rw [h]
        exact ih st hk2 hg hu
      · refine ih _ hk2 ?_ ?_
        · rcases hca with h2 | ⟨c2, hs2, h2⟩
          · rw [h2]
            exact hg
          · rw [h2]
            rw [List.getElem?_set_ne hak]
            exact hg
        · rw [husa]
          intro hmem
          rcases List.mem_cons.1 hmem with h | h
          · exact hak h.symm
          · exact hu h

/-! ### The claims -/

/-- C1 (corrected): the claim asserts the first cell's polygon is the
square with corners (±1000, ±1000) for every site v; the code builds
the square around the site (voronoi.h lines 255-267), so at v = (5,0)
the vertices are (5±1000, ±1000) and the corner (-1000,-1000) does not
occur.  -/
theorem C1_counterexample :
    (insertVec K0 1000 ⟨[]⟩ ⟨5, 0⟩).cells.map (fun cl => cl.area.data) =
      [[⟨-995, -1000⟩, ⟨1005, -1000⟩, ⟨1005, 1000⟩, ⟨-995, 1000⟩]] ∧
    ¬ ∃ cl ∈ (insertVec K0 1000 ⟨[]⟩ ⟨5, 0⟩).cells,
        Vec.mk (-1000) (-1000) ∈ cl.area.data := by decide

/-- C1 (amended): inserting the first site v into an empty diagram with
bounding half-width 1000 yields exactly one cell whose polygon is the
axis-aligned square with corners (v.x ± 1000, v.y ± 1000), centered at v;
this holds for every geometry kernel, so no splitting or cascade is
consulted. -/
theorem C1_bootstrap_centered (G : GeoKernel) (v : Vec) :
    (insertVec G 1000 ⟨[]⟩ v).cells =
      [⟨v, ⟨[⟨v.x - 1000, v.y - 1000⟩, ⟨v.x + 1000, v.y - 1000⟩,
             ⟨v.x + 1000, v.y + 1000⟩, ⟨v.x - 1000, v.y + 1000⟩], 0⟩, 0⟩] := by
  unfold insertVec
  rw [insertCell_empty]
  simp [boundingSquare]

/-- C2 (confirmed): when the clip yields both sub-polygons and neither
contains the located site, the result equals a fresh insertion of v with
the non-u-side polygon rB as its tentative area (re-entering the
insertion procedure with that cell gives the identical diagram), and
concretely the fallback adds cell(v, rB, colour) to the cell set. -/
theorem C2_degenerate_fallback (G : GeoKernel) (bbs : Nat) (w : voronoi)
    (c : cell) (nc : Nat) (cnear : cell) (rA rB rem : List Vec)
    (hf : w.cells.findIdx? (fun cl => G.contains cl.area.data c.site) = some nc)
    (hg : w.cells[nc]? = some cnear)
    (hclip : G.clip cnear.area.data (perpendicularBisector G c.site cnear.site) =
      (some rA, some rB, rem))
    (hA : G.contains rA cnear.site = false)
    (hB : G.contains rB cnear.site = false) :
    insertCell G bbs w c = insertCell G bbs w ⟨c.site, ⟨rB, c.colour⟩, c.colour⟩ ∧
    insertCell G bbs w c = ⟨setAdd w.cells ⟨c.site, ⟨rB, c.colour⟩, c.colour⟩⟩ := by
  have h1 := insertCell_of_noside G bbs w c nc cnear rA rB rem hf hg hclip hA hB
  have h2 := insertCell_of_noside G bbs w ⟨c.site, ⟨rB, c.colour⟩, c.colour⟩ nc
    cnear rA rB rem hf hg hclip hA hB
  exact ⟨h1.trans h2.symm, h1⟩

/-- Witness for C2 at a concrete diagram and kernel. -/
theorem C2_witness :
    insertCell Kmem 1000 w2 c2 =
      ⟨setAdd w2.cells ⟨c2.site, ⟨[⟨8, 8⟩], c2.colour⟩, c2.colour⟩⟩ :=
  (C2_degenerate_fallback Kmem 1000 w2 c2 0 ⟨⟨0, 0⟩, ⟨[⟨9, 9⟩], 0⟩, 0⟩ [⟨7, 7⟩]
    [⟨8, 8⟩] [] (by decide) (by decide) (by decide) (by decide) (by decide)).2

/-- C5 (corrected): in a single iteration of the cascade popping the one
boundary point (9,9), two distinct cells not yet marked used are both
clipped (their slots change) and both marked used — not at most one. -/
theorem C5_counterexample :
    stx.rC = [⟨9, 9⟩] ∧ stx.used = [0] ∧
    (cascadeIter Kc5 ⟨5, 5⟩ stx).used = [2, 1, 0] ∧
    (cascadeIter Kc5 ⟨5, 5⟩ stx).cells[1]? ≠ stx.cells[1]? ∧
    (cascadeIter Kc5 ⟨5, 5⟩ stx).cells[2]? ≠ stx.cells[2]? := by decide

/-- C5 (amended): in every iteration popping q, EVERY cell not yet marked
used whose polygon contains q is processed and marked used (possibly
several), and the popped occurrence of q is removed from the worklist at
the end of the iteration whether or not any containing cell was found. -/
theorem C5_sweep_all_marked (G : GeoKernel) (v : Vec) (st : CascadeState)
    (q : Vec) (rest : List Vec) (hrc : st.rC = q :: rest) :
    (∀ k ck, st.cells[k]? = some ck → k ∉ st.used →
      G.contains ck.area.data q = true → k ∈ (cascadeIter G v st).used) ∧
    (cascadeIter G v st).rC.count q + 1 =
      (cascadeSweep G v q (List.range st.cells.length) st).rC.count q := by
  have hiter : cascadeIter G v st =
      ⟨(cascadeSweep G v q (List.range st.cells.length) st).cells,
       (cascadeSweep G v q (List.range st.cells.length) st).used,
       (cascadeSweep G v q (List.range st.cells.length) st).newCell,
       (cascadeSweep G v q (List.range st.cells.length) st).rC.erase q⟩ := by
    simp only [cascadeIter, hrc]
  constructor
  · intro k ck hg hu hq
    rw [hiter]
    have hklt : k < st.cells.length := by
      rcases List.getElem?_eq_some_iff.1 hg with ⟨h, _⟩
      exact h
    exact cascadeSweep_hits G v q (List.range st.cells.length) st k ck
      (List.mem_range.2 hklt) hg hu hq
  · rcases cascadeSweep_rC_extend G v q (List.range st.cells.length) st with ⟨t, ht⟩
    rw [hrc] at ht
    simp only [hiter]
    rw [ht, List.cons_append, List.erase_cons_head, List.count_cons_self]

/-- Witness for the amended C5: in the concrete iteration, the unused
containing cell 1 ends up marked used. -/
theorem C5_witness : 1 ∈ (cascadeIter Kc5 ⟨5, 5⟩ stx).used :=
  (C5_sweep_all_marked Kc5 ⟨5, 5⟩ stx ⟨9, 9⟩ [] (by decide)).1 1
    ⟨⟨50, 50⟩, ⟨[⟨9, 9⟩], 0⟩, 0⟩ (by decide) (by decide) (by decide)

/-- C6 (confirmed): the cascade worklist loop always halts — the
executable fuel bound (worklist length plus total clip-remainder length
over all cells plus one) suffices, because each cell is marked used at
most once (transferring its remainder contribution to the worklist
exactly once) while every iteration removes the popped point; the halt
state has an empty worklist. -/
theorem C6_cascade_terminates (G : GeoKernel) (v : Vec) (st : CascadeState) :
    cascadeFuel G v (cascadeBound G v st) st = some (runCascade G v st) ∧
    (runCascade G v st).rC = [] :=
  ⟨cascadeFuel_bound_eq G v st, runCascade_rC_empty G v st⟩

/-- C7 (confirmed): for a non-empty diagram, when no cell's polygon
contains the new site, insertion returns the diagram unchanged (same cell
count, every polygon untouched). -/
theorem C7_out_of_bounds_noop (G : GeoKernel) (bbs : Nat) (w : voronoi)
    (c : cell) (hne : w.cells ≠ [])
    (hnone : ∀ cl ∈ w.cells, G.contains cl.area.data c.site = false) :
    insertCell G bbs w c = w := by
  have hlen : 0 < w.cells.length := List.length_pos.2 hne
  exact insertCell_of_locate_fail G bbs w c hlen (List.findIdx?_eq_none_iff.2 hnone)

/-- Witness for C7 at a concrete diagram and kernel. -/
theorem C7_witness :
    w1.cells ≠ [] ∧ insertCell K0 1000 w1 ⟨⟨9, 9⟩, ⟨[], 0⟩, 0⟩ = w1 :=
  ⟨by decide,
   C7_out_of_bounds_noop K0 1000 w1 ⟨⟨9, 9⟩, ⟨[], 0⟩, 0⟩ (by decide) (by decide)⟩

/-- C9 (confirmed): a not-yet-used cell containing the popped point is
marked used whatever the clip result is; if the clip yields fewer than
two sub-polygons the state is otherwise untouched (areas, new cell,
worklist all unchanged); if neither sub-polygon contains the cell's own
site, the areas and the new cell are unchanged (only the remainder is
appended to the worklist); and a cell already marked used is never
processed again.  All paths are total: no error or fallback occurs. -/
theorem C9_cascade_edge_cases (G : GeoKernel) (v q : Vec) (st : CascadeState)
    (k : Nat) (ck : cell) (hg : st.cells[k]? = some ck) (hu : k ∉ st.used)
    (hq : G.contains ck.area.data q = true) :
    (cascadeCellStep G v q st k).used = k :: st.used ∧
    (∀ o1 o2 rem,
      G.clip ck.area.data (perpendicularBisector G v ck.site) = (o1, o2, rem) →
      (o1 = none ∨ o2 = none) →
      cascadeCellStep G v q st k = ⟨st.cells, k :: st.used, st.newCell, st.rC⟩) ∧
    (∀ rD rE rem,
      G.clip ck.area.data (perpendicularBisector G v ck.site) =
        (some rD, some rE, rem) →
      G.contains rD ck.site = false → G.contains rE ck.site = false →
      cascadeCellStep G v q st k =
        ⟨st.cells, k :: st.used, st.newCell, st.rC ++ rem⟩) ∧
    (∀ st2 : CascadeState, k ∈ st2.used → cascadeCellStep G v q st2 k = st2) :=
  ⟨cascadeCellStep_marks G v q st k ck hg hu hq,
   fun o1 o2 rem hclip hor =>
     cascadeCellStep_of_clipfail G v q st k ck o1 o2 rem hg hu hq hclip hor,
   fun rD rE rem hclip hA hB =>
     cascadeCellStep_of_noside G v q st k ck rD rE rem hg hu hq hclip hA hB,
   fun st2 h2 => cascadeCellStep_of_usedmem G v q st2 k h2⟩

/-- Witness for C9 at a concrete state and kernel. -/
theorem C9_witness :
    (cascadeCellStep Kmem ⟨5, 5⟩ ⟨9, 9⟩ st9 0).used = 0 :: st9.used :=
  (C9_cascade_edge_cases Kmem ⟨5, 5⟩ ⟨9, 9⟩ st9 0 ⟨⟨0, 0⟩, ⟨[⟨9, 9⟩], 0⟩, 0⟩
    (by decide) (by decide) (by decide)).1

/-! ### Helper lemmas for C4 and C8 -/

/-- A cascade started on an empty worklist halts immediately. -/
theorem runCascade_of_rC_nil (G : GeoKernel) (v : Vec) (st : CascadeState)
    (h : st.rC = []) : runCascade G v st = st := by
  unfold runCascade
  cases hb : cascadeBound G v st with
  | zero => simp [cascadeFuel, h]
  | succ n => simp [cascadeFuel, h]

/-- Adding to the cell set never disturbs existing slots. -/
theorem setAdd_getElem_lt (s : List cell) (c2 : cell) (n : Nat)
    (h : n < s.length) : (setAdd s c2)[n]? = s[n]? := by
  unfold setAdd
  split
  · rfl
  · exact List.getElem?_append_left h

/-- Adding a cell whose site is already present is a no-op of the cell
set. -/
theorem setAdd_of_dup (s : List cell) (c2 : cell)
    (h : ∃ b ∈ s, b.site = c2.site) : setAdd s c2 = s := by
  have hany : s.any (fun b => cellEq b c2) = true := by
    rcases h with ⟨b, hb, hs⟩
    refine List.any_eq_true.2 ⟨b, hb, ?_⟩
    simp [cellEq, hs]
  simp [setAdd, hany]

/-- Adding a cell with a fresh site appends it. -/
theorem setAdd_of_new (s : List cell) (c2 : cell)
    (h : ∀ b ∈ s, b.site ≠ c2.site) : setAdd s c2 = s ++ [c2] := by
  have hany : s.any (fun b => cellEq b c2) = false := by
    rw [List.any_eq_false]
    intro b hb
    simp [cellEq]
    exact h b hb
  simp [setAdd, hany]

/-- The cascade started from the split cell keeps every site of the
diagram. -/
theorem map_site_runCascade_set (G : GeoKernel) (vs : Vec) (w : voronoi)
    (nc : Nat) (cnear c2 : cell) (seed rem : List Vec)
    (hg : w.cells[nc]? = some cnear) (hs : c2.site = cnear.site) :
    (runCascade G vs ⟨w.cells.set nc c2, [nc], seed, rem⟩).cells.map cell.site =
      w.cells.map cell.site := by
  rw [runCascade_sites]
  rw [List.map_set]
  refine list_set_same _ _ _ ?_
  simp [hg, hs]

/-- Sites of the cell set after a duplicate add. -/
theorem sites_setAdd_dup (s : List cell) (c2 : cell)
    (h : ∃ b ∈ s, b.site = c2.site) :
    (setAdd s c2).map cell.site = s.map cell.site := by
  rw [setAdd_of_dup s c2 h]

/-- Duplicated sites transfer along equal site maps. -/
theorem dup_mem_of_map (l1 l2 : List cell) (s : Vec)
    (hmap : l1.map cell.site = l2.map cell.site) (h : ∃ b ∈ l2, b.site = s) :
    ∃ b ∈ l1, b.site = s := by
  rcases h with ⟨b, hb, hs⟩
  have hmem : s ∈ l1.map cell.site := by
    rw [hmap]
    exact List.mem_map.2 ⟨b, hb, hs⟩
  rcases List.mem_map.1 hmem with ⟨b2, hb2, hs2⟩
  exact ⟨b2, hb2, hs2⟩

/-- C4 (confirmed): when the clip of the located cell yields two
sub-polygons, the one containing the located site u (side A first, then
side B, matching the source's test order) is assigned back as the
existing cell's area — and stays there through the cascade — while the
other sub-polygon seeds the new cell's area; with an empty remainder the
inserted diagram is exactly the split cell plus the new cell added to
the set. -/
theorem C4_split_assignment (G : GeoKernel) (bbs : Nat) (w : voronoi) (c : cell)
    (nc : Nat) (cnear : cell) (rA rB rem : List Vec)
    (hf : w.cells.findIdx? (fun cl => G.contains cl.area.data c.site) = some nc)
    (hg : w.cells[nc]? = some cnear)
    (hclip : G.clip cnear.area.data (perpendicularBisector G c.site cnear.site) =
      (some rA, some rB, rem)) :
    (G.contains rA cnear.site = true →
      (insertCell G bbs w c).cells[nc]? =
        some ⟨cnear.site, ⟨rA, cnear.colour⟩, cnear.colour⟩ ∧
      (rem = [] →
        insertCell G bbs w c =
          ⟨setAdd (w.cells.set nc ⟨cnear.site, ⟨rA, cnear.colour⟩, cnear.colour⟩)
            ⟨c.site, ⟨rB, c.colour⟩, c.colour⟩⟩)) ∧
    (G.contains rA cnear.site = false → G.contains rB cnear.site = true →
      (insertCell G bbs w c).cells[nc]? =
        some ⟨cnear.site, ⟨rB, cnear.colour⟩, cnear.colour⟩ ∧
      (rem = [] →
        insertCell G bbs w c =
          ⟨setAdd (w.cells.set nc ⟨cnear.site, ⟨rB, cnear.colour⟩, cnear.colour⟩)
            ⟨c.site, ⟨rA, c.colour⟩, c.colour⟩⟩)) := by
  have hnc : nc < w.cells.length := by
    rcases List.getElem?_eq_some_iff.1 hg with ⟨h, _⟩
    exact h
  constructor
  · intro hA
    have heq := insertCell_of_sideA G bbs w c nc cnear rA rB rem hf hg hclip hA
    constructor
    · rw [heq]
      have hlt2 : nc <
          (runCascade G c.site
            ⟨w.cells.set nc ⟨cnear.site, ⟨rA, cnear.colour⟩, cnear.colour⟩,
             [nc], rB, rem⟩).cells.length := by
        rw [runCascade_length]
        simpa using hnc
      rw [setAdd_getElem_lt _ _ nc hlt2]
      rw [runCascade_preserve_used G c.site _ nc (by simp)]
      exact List.getElem?_set_self (by simpa using hnc)
    · intro hrem
      subst hrem
      rw [heq, runCascade_of_rC_nil G c.site _ rfl]
  · intro hA hB
    have heq := insertCell_of_sideB G bbs w c nc cnear rA rB rem hf hg hclip hA hB
    constructor
    · rw [heq]
      have hlt2 : nc <
          (runCascade G c.site
            ⟨w.cells.set nc ⟨cnear.site, ⟨rB, cnear.colour⟩, cnear.colour⟩,
             [nc], rA, rem⟩).cells.length := by
        rw [runCascade_length]
        simpa using hnc
      rw [setAdd_getElem_lt _ _ nc hlt2]
      rw [runCascade_preserve_used G c.site _ nc (by simp)]
      exact List.getElem?_set_self (by simpa using hnc)
    · intro hrem
      subst hrem
      rw [heq, runCascade_of_rC_nil G c.site _ rfl]

/-- Witness for C4 at a concrete diagram and kernel. -/
theorem C4_witness :
    (insertCell Kmem 1000 w4 c2).cells[0]? =
      some ⟨⟨7, 7⟩, ⟨[⟨7, 7⟩], 0⟩, 0⟩ :=
  ((C4_split_assignment Kmem 1000 w4 c2 0 ⟨⟨7, 7⟩, ⟨[⟨9, 9⟩], 0⟩, 0⟩ [⟨7, 7⟩]
    [⟨8, 8⟩] [] (by decide) (by decide) (by decide)).1 (by decide)).1

/-- Inserting a duplicate site never changes the site list. -/
theorem insertCell_sites_dup (G : GeoKernel) (bbs : Nat) (w : voronoi) (c : cell)
    (hdup : ∃ cl ∈ w.cells, cl.site = c.site) :
    sites (insertCell G bbs w c) = sites w := by
  have hne : w.cells ≠ [] := by
    rcases hdup with ⟨cl, hcl, _⟩
    intro h
    rw [h] at hcl
    cases hcl
  have hlen : 0 < w.cells.length := List.length_pos.2 hne
  cases hf : w.cells.findIdx? (fun cl => G.contains cl.area.data c.site) with
  | none => rw [insertCell_of_locate_fail G bbs w c hlen hf]
  | some nc =>
    rcases findIdx_some_get _ _ _ hf with ⟨cnear, hg, hq⟩
    rcases hclip : G.clip cnear.area.data
      (perpendicularBisector G c.site cnear.site) with ⟨o1, o2, rem⟩
    cases o1 with
    | none =>
      rw [insertCell_of_clipfail G bbs w c nc cnear none o2 rem hf hg hclip
        (Or.inl rfl)]
    | some rA =>
      cases o2 with
      | none =>
        rw [insertCell_of_clipfail G bbs w c nc cnear (some rA) none rem hf hg
          hclip (Or.inr rfl)]
      | some rB =>
        cases hA : G.contains rA cnear.site with
        | true =>
          rw [insertCell_of_sideA G bbs w c nc cnear rA rB rem hf hg hclip hA]
          have hmap := map_site_runCascade_set G c.site w nc cnear
            ⟨cnear.site, ⟨rA, cnear.colour⟩, cnear.colour⟩ rB rem hg rfl
          have hdup2 := dup_mem_of_map _ w.cells c.site hmap hdup
          refine Eq.trans (sites_setAdd_dup _ _ ?_) hmap
          exact hdup2
        | false =>
          cases hB : G.contains rB cnear.site with
          | true =>
            rw [insertCell_of_sideB G bbs w c nc cnear rA rB rem hf hg hclip hA hB]
            have hmap := map_site_runCascade_set G c.site w nc cnear
              ⟨cnear.site, ⟨rB, cnear.colour⟩, cnear.colour⟩ rA rem hg rfl
            have hdup2 := dup_mem_of_map _ w.cells c.site hmap hdup
            refine Eq.trans (sites_setAdd_dup _ _ ?_) hmap
            exact hdup2
          | false =>
            rw [insertCell_of_noside G bbs w c nc cnear rA rB rem hf hg hclip hA hB]
            refine Eq.trans (sites_setAdd_dup _ _ ?_) rfl
            exact hdup

/-- C8 (corrected): inserting a site already present is NOT always an
exact no-op: if the clip of the degenerate bisector (left undefined by
the source's collaborators) returns two sides, the located cell's area is
reassigned, so the diagram changes even though the site set does not. -/
theorem C8_counterexample :
    (∃ cl ∈ wdup.cells, cl.site = Vec.mk 0 0) ∧
    insertVec Kdup 1000 wdup ⟨0, 0⟩ ≠ wdup := by decide

/-- C8 (amended): inserting a site that duplicates an existing cell's
site never changes the diagram's site list (hence its cell count) — the
final set insertion deduplicates by site equality — and it is an exact
no-op whenever the clip of the located cell fails to produce both
sub-polygons. -/
theorem C8_duplicate_site (G : GeoKernel) (bbs : Nat) (w : voronoi) (c : cell)
    (hdup : ∃ cl ∈ w.cells, cl.site = c.site) :
    sites (insertCell G bbs w c) = sites w ∧
    (insertCell G bbs w c).cells.length = w.cells.length ∧
    (∀ nc cnear o1 o2 rem,
      w.cells.findIdx? (fun cl => G.contains cl.area.data c.site) = some nc →
      w.cells[nc]? = some cnear →
      G.clip cnear.area.data (perpendicularBisector G c.site cnear.site) =
        (o1, o2, rem) →
      (o1 = none ∨ o2 = none) → insertCell G bbs w c = w) := by
  have hne : w.cells ≠ [] := by
    rcases hdup with ⟨cl, hcl, _⟩
    intro h
    rw [h] at hcl
    cases hcl
  have hlen : 0 < w.cells.length := List.length_pos.2 hne
  have hsites := insertCell_sites_dup G bbs w c hdup
  refine ⟨hsites, ?_, ?_⟩
  · have := congrArg List.length hsites
    simpa [sites] using this
  · intro nc cnear o1 o2 rem hf hg hclip hor
    exact insertCell_of_clipfail G bbs w c nc cnear o1 o2 rem hf hg hclip hor

/-- Witness for the amended C8 at a concrete diagram and kernel. -/
theorem C8_witness :
    sites (insertCell Kdup 1000 wdup ⟨⟨0, 0⟩, ⟨[], 0⟩, 0⟩) = sites wdup :=
  (C8_duplicate_site Kdup 1000 wdup ⟨⟨0, 0⟩, ⟨[], 0⟩, 0⟩ (by decide)).1

/-! ### Site accounting for fresh insertions (C3) -/

/-- Freshness of a site transfers along equal site maps. -/
theorem fresh_of_map (l1 l2 : List cell) (s : Vec)
    (hmap : l1.map cell.site = l2.map cell.site)
    (h : ∀ b ∈ l2, b.site ≠ s) : ∀ b ∈ l1, b.site ≠ s := by
  intro b hb hs
  rcases dup_mem_of_map l2 l1 s hmap.symm ⟨b, hb, hs⟩ with ⟨b2, hb2, hs2⟩
  exact h b2 hb2 hs2

/-- Sites of the cell set after a fresh add. -/
theorem sites_setAdd_new (s : List cell) (c2 : cell)
    (h : ∀ b ∈ s, b.site ≠ c2.site) :
    (setAdd s c2).map cell.site = s.map cell.site ++ [c2.site] := by
  rw [setAdd_of_new s c2 h, List.map_append]
  rfl

/-- Inserting a located, non-duplicate site whose clip yields both sides
appends exactly that site to the site list. -/
theorem insertCell_sites_new (G : GeoKernel) (bbs : Nat) (w : voronoi) (c : cell)
    (hnodup : ∀ cl ∈ w.cells, cl.site ≠ c.site) (nc : Nat) (cnear : cell)
    (rA rB rem : List Vec)
    (hf : w.cells.findIdx? (fun cl => G.contains cl.area.data c.site) = some nc)
    (hg : w.cells[nc]? = some cnear)
    (hclip : G.clip cnear.area.data (perpendicularBisector G c.site cnear.site) =
      (some rA, some rB, rem)) :
    sites (insertCell G bbs w c) = sites w ++ [c.site] := by
  cases hA : G.contains rA cnear.site with
  | true =>
    rw [insertCell_of_sideA G bbs w c nc cnear rA rB rem hf hg hclip hA]
    have hmap := map_site_runCascade_set G c.site w nc cnear
      ⟨cnear.site, ⟨rA, cnear.colour⟩, cnear.colour⟩ rB rem hg rfl
    have hfresh := fresh_of_map _ w.cells c.site hmap hnodup
    refine Eq.trans (sites_setAdd_new _ _ ?_) ?_
    · exact hfresh
    · rw [hmap]
      rfl
  | false =>
    cases hB : G.contains rB cnear.site with
    | true =>
      rw [insertCell_of_sideB G bbs w c nc cnear rA rB rem hf hg hclip hA hB]
      have hmap := map_site_runCascade_set G c.site w nc cnear
        ⟨cnear.site, ⟨rB, cnear.colour⟩, cnear.colour⟩ rA rem hg rfl
      have hfresh := fresh_of_map _ w.cells c.site hmap hnodup
      refine Eq.trans (sites_setAdd_new _ _ ?_) ?_
      · exact hfresh
      · rw [hmap]
        rfl
    | false =>
      rw [insertCell_of_noside G bbs w c nc cnear rA rB rem hf hg hclip hA hB]
      refine Eq.trans (sites_setAdd_new _ _ ?_) ?_
      · exact hnodup
      · rfl

/-- One bare-site insertion appends the site exactly when the insertion
is successful, assuming the separating-clip contract of the kernel. -/
theorem insertVec_sites_step (G : GeoKernel) (bbs : Nat)
    (hsep : SeparatingClip G) (w : voronoi) (v : Vec) :
    sites (insertVec G bbs w v) =
      if successful G w v = true then sites w ++ [v] else sites w := by
  by_cases hempty : w.cells = []
  · have hsucc : successful G w v = true := by
      simp [successful, hempty]
    rw [if_pos hsucc]
    rcases w with ⟨cells⟩
    simp only at hempty
    subst hempty
    unfold insertVec
    rw [insertCell_empty]
    simp [sites]
  · have hlen : 0 < w.cells.length := List.length_pos.2 hempty
    have hie : w.cells.isEmpty = false := by
      simp [List.isEmpty_iff, hempty]
    cases hf : w.cells.findIdx? (fun cl => G.contains cl.area.data v) with
    | none =>
      have hib : inBounds G w v = false := by
        rw [inBounds, List.any_eq_false]
        intro x hx
        simp [List.findIdx?_eq_none_iff.1 hf x hx]
      have hsucc : successful G w v = false := by
        simp [successful, hie, hib]
      rw [if_neg (by simp [hsucc])]
      exact congrArg sites (insertCell_of_locate_fail G bbs w ⟨v, ⟨[], 0⟩, 0⟩ hlen hf)
    | some nc =>
      rcases findIdx_some_get _ _ _ hf with ⟨cnear, hg, hq⟩
      by_cases hdup : ∃ cl ∈ w.cells, cl.site = v
      · have hd : isDuplicate w v = true := by
          rcases hdup with ⟨cl, hcl, hs⟩
          exact List.any_eq_true.2 ⟨cl, hcl, by simp [hs]⟩
        have hsucc : successful G w v = false := by
          simp [successful, hie, hd]
        rw [if_neg (by simp [hsucc])]
        exact insertCell_sites_dup G bbs w ⟨v, ⟨[], 0⟩, 0⟩ hdup
      · have hd : isDuplicate w v = false := by
          rw [isDuplicate, List.any_eq_false]
          intro cl hcl
          simp only [beq_iff_eq]
          exact fun h => hdup ⟨cl, hcl, h⟩
        have hib : inBounds G w v = true := by
          rw [inBounds, ← List.findIdx?_isSome, hf]
          rfl
        have hsucc : successful G w v = true := by
          simp [successful, hie, hib, hd]
        rw [if_pos hsucc]
        have hvne : v ≠ cnear.site := by
          intro he
          exact hdup ⟨cnear, List.getElem?_mem hg, he.symm⟩
        rcases hsep cnear.area.data cnear.site v hq hvne with ⟨a, b, rem, hclip⟩
        exact insertCell_sites_new G bbs w ⟨v, ⟨[], 0⟩, 0⟩
          (fun cl hcl h => hdup ⟨cl, hcl, h⟩) nc cnear a b rem hf hg hclip

/-- Folding insertions adds one cell per successful insertion. -/
theorem insertAll_length (G : GeoKernel) (bbs : Nat) (hsep : SeparatingClip G) :
    ∀ (vs : List Vec) (w : voronoi),
      (insertAll G bbs w vs).cells.length = w.cells.length + successCount G bbs w vs := by
  intro vs
  induction vs with
  | nil =>
    intro w
    simp [insertAll, successCount]
  | cons v vs ih =>
    intro w
    have hstep := congrArg List.length (insertVec_sites_step G bbs hsep w v)
    have hall : insertAll G bbs w (v :: vs) = insertAll G bbs (insertVec G bbs w v) vs :=
      rfl
    rw [hall, ih (insertVec G bbs w v)]
    simp only [successCount]
    cases hsucc : successful G w v with
    | true =>
      rw [hsucc] at hstep
      simp [sites] at hstep ⊢
      omega
    | false =>
      rw [hsucc] at hstep
      simp [sites] at hstep ⊢
      omega

/-- C3 (confirmed): assuming the clip collaborator's contract (the
bisector of two distinct points, one inside the polygon, splits the
polygon into two present sides), every bare-site insertion appends the
site to the site list exactly when it is successful (in-bounds and
non-duplicate; the first insertion always succeeds) and destroys no
cell; consequently after any sequence of insertions into the empty
diagram the number of cells equals the number of successful
insertions. -/
theorem C3_cell_count_bijection (G : GeoKernel) (bbs : Nat)
    (hsep : SeparatingClip G) :
    (∀ w v, sites (insertVec G bbs w v) =
      if successful G w v = true then sites w ++ [v] else sites w) ∧
    (∀ vs, (insertAll G bbs ⟨[]⟩ vs).cells.length = successCount G bbs ⟨[]⟩ vs) := by
  refine ⟨fun w v => insertVec_sites_step G bbs hsep w v, fun vs => ?_⟩
  have h := insertAll_length G bbs hsep vs ⟨[]⟩
  simpa using h

/-- Witness for C3: a two-site run under a concrete separating kernel. -/
theorem C3_witness :
    successCount Ksep 1000 ⟨[]⟩ [⟨0, 0⟩, ⟨3, 4⟩] = 2 ∧
    (insertAll Ksep 1000 ⟨[]⟩ [⟨0, 0⟩, ⟨3, 4⟩]).cells.length =
      successCount Ksep 1000 ⟨[]⟩ [⟨0, 0⟩, ⟨3, 4⟩] :=
  ⟨by decide,
   (C3_cell_count_bijection Ksep 1000
     (fun _ _ _ _ _ => ⟨[], [], [], rfl⟩)).2 [⟨0, 0⟩, ⟨3, 4⟩]⟩

/-! ### Colour erasure and naturality (C10) -/

theorem cascadeCellStep_cmap (G : GeoKernel) (v q : Vec) (f : Nat → Nat)
    (st : CascadeState) (k : Nat) :
    cascadeCellStep G v q (smap f st) k = smap f (cascadeCellStep G v q st k) := by
  by_cases hu : k ∈ st.used
  · rw [cascadeCellStep_of_usedmem G v q st k hu,
      cascadeCellStep_of_usedmem G v q (smap f st) k hu]
  · cases hg : st.cells[k]? with
    | none =>
      have hg2 : (smap f st).cells[k]? = none := by
        show (st.cells.map (cmap f))[k]? = none
        rw [List.getElem?_map, hg]
        rfl
      have hb : st.used.contains k = false := by simpa using hu
      have h1 : cascadeCellStep G v q st k = st := by
        simp only [cascadeCellStep, hb, hg]
        rfl
      have h2 : cascadeCellStep G v q (smap f st) k = smap f st := by
        simp only [cascadeCellStep, hb, hg2]
        split <;> rfl
      rw [h1, h2]
    | some ck =>
      have hg2 : (smap f st).cells[k]? = some (cmap f ck) := by
        show (st.cells.map (cmap f))[k]? = some (cmap f ck)
        rw [List.getElem?_map, hg]
        rfl
      cases hq : G.contains ck.area.data q with
      | false =>
        rw [cascadeCellStep_of_nocontain G v q st k ck hg hu hq,
          cascadeCellStep_of_nocontain G v q (smap f st) k (cmap f ck) hg2 hu hq]
      | true =>
        rcases hclip : G.clip ck.area.data (perpendicularBisector G v ck.site) with
          ⟨o1, o2, rem⟩
        cases o1 with
        | none =>
          rw [cascadeCellStep_of_clipfail G v q st k ck none o2 rem hg hu hq hclip
            (Or.inl rfl),
            cascadeCellStep_of_clipfail G v q (smap f st) k (cmap f ck) none o2 rem
            hg2 hu hq hclip (Or.inl rfl)]
          rfl
        | some rD =>
          cases o2 with
          | none =>
            rw [cascadeCellStep_of_clipfail G v q st k ck (some rD) none rem hg hu
              hq hclip (Or.inr rfl),
              cascadeCellStep_of_clipfail G v q (smap f st) k (cmap f ck) (some rD)
              none rem hg2 hu hq hclip (Or.inr rfl)]
            rfl
          | some rE =>
            cases hA : G.contains rD ck.site with
            | true =>
              rw [cascadeCellStep_of_sideD G v q st k ck rD rE rem hg hu hq hclip hA,
                cascadeCellStep_of_sideD G v q (smap f st) k (cmap f ck) rD rE rem
                hg2 hu hq hclip hA]
              simp [smap, cmap, pmap, List.map_set]
            | false =>
              cases hB : G.contains rE ck.site with
              | true =>
                rw [cascadeCellStep_of_sideE G v q st k ck rD rE rem hg hu hq hclip
                  hA hB,
                  cascadeCellStep_of_sideE G v q (smap f st) k (cmap f ck) rD rE rem
                  hg2 hu hq hclip hA hB]
                simp [smap, cmap, pmap, List.map_set]
              | false =>
                rw [cascadeCellStep_of_noside G v q st k ck rD rE rem hg hu hq hclip
                  hA hB,
                  cascadeCellStep_of_noside G v q (smap f st) k (cmap f ck) rD rE rem
                  hg2 hu hq hclip hA hB]
                rfl

theorem cascadeSweep_cmap (G : GeoKernel) (v q : Vec) (f : Nat → Nat)
    (ks : List Nat) (st : CascadeState) :
    cascadeSweep G v q ks (smap f st) = smap f (cascadeSweep G v q ks st) := by
  induction ks generalizing st with
  | nil => rfl
  | cons k ks ih =>
    rw [cascadeSweep_cons, cascadeSweep_cons, cascadeCellStep_cmap]
    exact ih (cascadeCellStep G v q st k)

theorem cascadeIter_cmap (G : GeoKernel) (v : Vec) (f : Nat → Nat)
    (st : CascadeState) :
    cascadeIter G v (smap f st) = smap f (cascadeIter G v st) := by
  rcases hrc : st.rC with _ | ⟨q, rest⟩
  · have hrc2 : (smap f st).rC = [] := hrc
    simp only [cascadeIter, hrc, hrc2]
  · have hrc2 : (smap f st).rC = q :: rest := hrc
    simp only [cascadeIter, hrc, hrc2]
    have hlen : (smap f st).cells.length = st.cells.length := by
      show (st.cells.map (cmap f)).length = st.cells.length
      exact List.length_map _ _
    rw [hlen, cascadeSweep_cmap]
    rfl

theorem cascadeBound_cmap (G : GeoKernel) (v : Vec) (f : Nat → Nat)
    (st : CascadeState) : cascadeBound G v (smap f st) = cascadeBound G v st := by
  show (smap f st).rC.length + ((smap f st).cells.map (remLen G v)).sum + 1 =
    st.rC.length + (st.cells.map (remLen G v)).sum + 1
  have h : (smap f st).cells.map (remLen G v) = st.cells.map (remLen G v) := by
    show (st.cells.map (cmap f)).map (remLen G v) = st.cells.map (remLen G v)
    rw [List.map_map]
    rfl
  rw [h]
  rfl

theorem cascadeFuel_cmap (G : GeoKernel) (v : Vec) (f : Nat → Nat) :
    ∀ n st, cascadeFuel G v n (smap f st) = (cascadeFuel G v n st).map (smap f) := by
  intro n
  induction n with
  | zero =>
    intro st
    simp only [cascadeFuel]
    by_cases hrc : st.rC = []
    · have hrc2 : (smap f st).rC = [] := hrc
      rw [if_pos hrc, if_pos hrc2]
      rfl
    · have hrc2 : ¬ (smap f st).rC = [] := hrc
      rw [if_neg hrc, if_neg hrc2]
      rfl
  | succ n ih =>
    intro st
    simp only [cascadeFuel]
    by_cases hrc : st.rC = []
    · have hrc2 : (smap f st).rC = [] := hrc
      rw [if_pos hrc, if_pos hrc2]
      rfl
    · have hrc2 : ¬ (smap f st).rC = [] := hrc
      rw [if_neg hrc, if_neg hrc2, cascadeIter_cmap]
      exact ih (cascadeIter G v st)

theorem runCascade_cmap (G : GeoKernel) (v : Vec) (f : Nat → Nat)
    (st : CascadeState) : runCascade G v (smap f st) = smap f (runCascade G v st) := by
  unfold runCascade
  rw [cascadeBound_cmap, cascadeFuel_cmap]
  cases cascadeFuel G v (cascadeBound G v st) st with
  | none => rfl
  | some fin => rfl

theorem setAdd_cmap (f : Nat → Nat) (sl : List cell) (c2 : cell) :
    setAdd (sl.map (cmap f)) (cmap f c2) = (setAdd sl c2).map (cmap f) := by
  have hany : (sl.map (cmap f)).any (fun b => cellEq b (cmap f c2)) =
      sl.any (fun b => cellEq b c2) := by
    rw [List.any_map]
    rfl
  simp only [setAdd, hany]
  split
  · rfl
  · rw [List.map_append]
    rfl

/-- Rewriting all colour payloads commutes with insertion: the algorithm
never consults colours. -/
theorem insertCell_cmap (G : GeoKernel) (bbs : Nat) (f : Nat → Nat)
    (w : voronoi) (c : cell) :
    insertCell G bbs (vmap f w) (cmap f c) = vmap f (insertCell G bbs w c) := by
  rcases w with ⟨cells⟩
  cases cells with
  | nil => rfl
  | cons c0 cs =>
    have hlen : 0 < (voronoi.mk (c0 :: cs)).cells.length := by simp
    have hlen2 : 0 < (vmap f ⟨c0 :: cs⟩).cells.length := by simp [vmap]
    cases hf : (c0 :: cs).findIdx?
      (fun cl => G.contains cl.area.data c.site) with
    | none =>
      have hf2 : (vmap f ⟨c0 :: cs⟩).cells.findIdx?
          (fun cl => G.contains cl.area.data (cmap f c).site) = none := by
        show ((c0 :: cs).map (cmap f)).findIdx? _ = none
        rw [List.findIdx?_map]
        exact hf
      rw [insertCell_of_locate_fail G bbs (vmap f ⟨c0 :: cs⟩) (cmap f c) hlen2 hf2,
        insertCell_of_locate_fail G bbs ⟨c0 :: cs⟩ c hlen hf]
    | some nc =>
      rcases findIdx_some_get _ _ _ hf with ⟨cnear, hg, hq⟩
      have hf2 : (vmap f ⟨c0 :: cs⟩).cells.findIdx?
          (fun cl => G.contains cl.area.data (cmap f c).site) = some nc := by
        show ((c0 :: cs).map (cmap f)).findIdx? _ = some nc
        rw [List.findIdx?_map]
        exact hf
      have hg2 : (vmap f ⟨c0 :: cs⟩).cells[nc]? = some (cmap f cnear) := by
        show ((c0 :: cs).map (cmap f))[nc]? = some (cmap f cnear)
        rw [List.getElem?_map, hg]
        rfl
      rcases hclip : G.clip cnear.area.data
        (perpendicularBisector G c.site cnear.site) with ⟨o1, o2, rem⟩
      cases o1 with
      | none =>
        rw [insertCell_of_clipfail G bbs (vmap f ⟨c0 :: cs⟩) (cmap f c) nc
          (cmap f cnear) none o2 rem hf2 hg2 hclip (Or.inl rfl),
          insertCell_of_clipfail G bbs ⟨c0 :: cs⟩ c nc cnear none o2 rem hf hg
          hclip (Or.inl rfl)]
      | some rA =>
        cases o2 with
        | none =>
          rw [insertCell_of_clipfail G bbs (vmap f ⟨c0 :: cs⟩) (cmap f c) nc
            (cmap f cnear) (some rA) none rem hf2 hg2 hclip (Or.inr rfl),
            insertCell_of_clipfail G bbs ⟨c0 :: cs⟩ c nc cnear (some rA) none rem
            hf hg hclip (Or.inr rfl)]
        | some rB =>
          cases hA : G.contains rA cnear.site with
          | true =>
            rw [insertCell_of_sideA G bbs (vmap f ⟨c0 :: cs⟩) (cmap f c) nc
              (cmap f cnear) rA rB rem hf2 hg2 hclip hA,
              insertCell_of_sideA G bbs ⟨c0 :: cs⟩ c nc cnear rA rB rem hf hg
              hclip hA]
            have hstate : (⟨(vmap f ⟨c0 :: cs⟩).cells.set nc
                ⟨(cmap f cnear).site, ⟨rA, (cmap f cnear).colour⟩,
                 (cmap f cnear).colour⟩, [nc], rB, rem⟩ : CascadeState) =
                smap f ⟨(c0 :: cs).set nc
                  ⟨cnear.site, ⟨rA, cnear.colour⟩, cnear.colour⟩, [nc], rB, rem⟩ := by
              simp [vmap, smap, cmap, pmap, List.map_set]
            rw [hstate, runCascade_cmap]
            exact congrArg voronoi.mk (setAdd_cmap f
              (runCascade G c.site ⟨(c0 :: cs).set nc
                ⟨cnear.site, ⟨rA, cnear.colour⟩, cnear.colour⟩, [nc], rB, rem⟩).cells
              ⟨c.site, ⟨(runCascade G c.site ⟨(c0 :: cs).set nc
                ⟨cnear.site, ⟨rA, cnear.colour⟩, cnear.colour⟩,
                [nc], rB, rem⟩).newCell, c.colour⟩, c.colour⟩)
          | false =>
            cases hB : G.contains rB cnear.site with
            | true =>
              rw [insertCell_of_sideB G bbs (vmap f ⟨c0 :: cs⟩) (cmap f c) nc
                (cmap f cnear) rA rB rem hf2 hg2 hclip hA hB,
                insertCell_of_sideB G bbs ⟨c0 :: cs⟩ c nc cnear rA rB rem hf hg
                hclip hA hB]
              have hstate : (⟨(vmap f ⟨c0 :: cs⟩).cells.set nc
                  ⟨(cmap f cnear).site, ⟨rB, (cmap f cnear).colour⟩,
                   (cmap f cnear).colour⟩, [nc], rA, rem⟩ : CascadeState) =
                  smap f ⟨(c0 :: cs).set nc
                    ⟨cnear.site, ⟨rB, cnear.colour⟩, cnear.colour⟩,
                    [nc], rA, rem⟩ := by
                simp [vmap, smap, cmap, pmap, List.map_set]
              rw [hstate, runCascade_cmap]
              exact congrArg voronoi.mk (setAdd_cmap f
                (runCascade G c.site ⟨(c0 :: cs).set nc
                  ⟨cnear.site, ⟨rB, cnear.colour⟩, cnear.colour⟩,
                  [nc], rA, rem⟩).cells
                ⟨c.site, ⟨(runCascade G c.site ⟨(c0 :: cs).set nc
                  ⟨cnear.site, ⟨rB, cnear.colour⟩, cnear.colour⟩,
                  [nc], rA, rem⟩).newCell, c.colour⟩, c.colour⟩)
            | false =>
              rw [insertCell_of_noside G bbs (vmap f ⟨c0 :: cs⟩) (cmap f c) nc
                (cmap f cnear) rA rB rem hf2 hg2 hclip hA hB,
                insertCell_of_noside G bbs ⟨c0 :: cs⟩ c nc cnear rA rB rem hf hg
                hclip hA hB]
              exact congrArg voronoi.mk (setAdd_cmap f (c0 :: cs)
                ⟨c.site, ⟨rB, c.colour⟩, c.colour⟩)

/-- C10 (confirmed): inserting a bare site equals inserting the cell
built from that site and the default colour payload (voronoi.h lines
103-106); and rewriting every colour payload commutes with insertion —
for every recolouring f, inserting recoloured inputs into the recoloured
diagram recolours the result — so the colour payload never influences
which cells are split or how any area is computed. -/
theorem C10_colour_never_consulted (G : GeoKernel) (bbs : Nat) :
    (∀ (w : voronoi) (v : Vec),
      insertVec G bbs w v = insertCell G bbs w ⟨v, ⟨[], 0⟩, 0⟩) ∧
    (∀ (f : Nat → Nat) (w : voronoi) (c : cell),
      insertCell G bbs (vmap f w) (cmap f c) = vmap f (insertCell G bbs w c)) :=
  ⟨fun _ _ => rfl, fun f w c => insertCell_cmap G bbs f w c⟩

end Efgy
